import Mathlib

/-!
Shallow embedding of the font engine and rasterization core of the `tid`
status-bar widget (Rust sources: `src/font.rs`, `src/font/mod.rs`,
`src/state.rs`), together with theorems settling the specification claims.

Conventions of the embedding:
* machine integers (`u8`, `usize`) become `Nat`; byte values are `Nat`s that
  are `< 256` wherever the Rust type is `u8`;
* fallible code paths — in particular Rust panics (failed asserts, slice
  indexing out of range, integer underflow, division by zero) — become
  `Option`, with `none` marking the panic;
* a Rust iterator is embedded as the list of items it produces;
* Rust `&str` becomes `List Char`; `str::len` (UTF-8 byte length) is
  `utf8Len` below.
-/

namespace Tid

/-- A byte (`u8`): a `Nat` kept below 256 by construction. -/
abbrev Byte := Nat

/-- `Pixel = [u8; PIXEL_SIZE]` with `PIXEL_SIZE = 4` (from `config.rs`). -/
structure Pixel where
  r : Byte
  g : Byte
  b : Byte
  a : Byte
deriving DecidableEq

/-! ## `src/font.rs` — the uf2 (TileFont) decoder -/

/-- `FILE_SIZE` from `font.rs`: `0x2100 = 256 + 8192`. -/
def FILE_SIZE : Nat := 0x2100

/-- `TILE_ROWS` from `font.rs`. -/
def TILE_ROWS : Nat := 8

/-- `TILES` from `font.rs`. -/
def TILES : Nat := 4

/-- `Glyph` from `font.rs`: a declared width plus the four tiles.
`tiles t r` is byte row `r` (`0 ≤ r < 8`) of tile `t` (`0 ≤ t < 4`). -/
structure Glyph where
  width : Nat
  tiles : Nat → Nat → Byte

/-- `Glyph::get_px_uncheched`: asserts `x < 16 && y < 16` (modelled by the
`Option`), then reads bit `7 - x % 8` of byte `y % 8` of tile
`(x / 8) * 2 + y / 8`. -/
def Glyph.getPxUnchecked (g : Glyph) (x y : Nat) : Option Bool :=
  if x < 16 ∧ y < 16 then
    some (Nat.testBit (g.tiles (x / 8 * 2 + y / 8) (y % 8)) (7 - x % 8))
  else none

/-- `Glyph::full_row`: asserts `y < 16`; builds `[false; 16]` and overwrites
the slice `ret[..width]` with `get_px_uncheched(x, y)` for each `x`.
Slicing `ret[..width]` of the 16-element array panics (`none`) when
`width > 16`. -/
def Glyph.fullRow (g : Glyph) (y : Nat) : Option (List Bool) :=
  if y < 16 then
    if g.width ≤ 16 then
      ((List.range g.width).mapM (fun x => g.getPxUnchecked x y)).map
        (fun px => px ++ List.replicate (16 - g.width) false)
    else none
  else none

/-- `Glyph::full_rows`: `(0..16).map(|y| self.full_row(y))`. -/
def Glyph.fullRows (g : Glyph) : Option (List (List Bool)) :=
  (List.range 16).mapM g.fullRow

/-- The `Rows` iterator state from `font.rs`. -/
structure Rows where
  y : Nat
  width : Nat
  rows : List (List Bool)

/-- The items produced by `<Rows as Iterator>::next` from state `r`: one item
per `y` in `r.y .. 16` (`next` returns `None` once `y >= 16`), each item being
`rows[y][..width]` collected into a boxed slice. -/
def Rows.items (r : Rows) : List (List Bool) :=
  ((List.range 16).drop r.y).map (fun y => ((r.rows.get? y).getD []).take r.width)

/-- `Glyph::rows` (via `Rows::from`): start the iterator at `y = 0` over
`full_rows()` and collect every item it produces. -/
def Glyph.rows (g : Glyph) : Option (List (List Bool)) :=
  g.fullRows.map (fun rs => Rows.items ⟨0, g.width, rs⟩)

/-- `Font` from `font.rs`: 256 width bytes followed by 8192 glyph bytes. -/
structure Font where
  widths : Nat → Byte
  glyphs : Nat → Byte

/-- `Font::glyph_tiles`: `glyphs.array_chunks::<8>().array_chunks::<4>().nth(n)`,
i.e. glyph `n`'s tile `t` has byte row `r` at `glyphs[n * 32 + t * 8 + r]`;
`nth` yields `Some` exactly for `n < 8192 / 32 = 256`. -/
def Font.glyphTiles (f : Font) (n : Nat) : Option (Nat → Nat → Byte) :=
  if n < 256 then some (fun t r => f.glyphs (n * 32 + t * 8 + r)) else none

/-- `Font::glyph`: `None` for non-ASCII; otherwise width from the width table
at `ch as u8 as usize` and tiles from `glyph_tiles` (whose `unwrap` cannot
fail since ASCII codes are `< 256`). -/
def Font.glyph (f : Font) (ch : Char) : Option Glyph :=
  if ch.toNat ≤ 0x7F then
    (f.glyphTiles ch.toNat).map (fun ts => { width := f.widths ch.toNat, tiles := ts })
  else none

/-- `Font::height`: `TILES / 2 * TILE_ROWS`. -/
def Font.height (_f : Font) : Nat := TILES / 2 * TILE_ROWS

/-- `Font::determine_width`:
`s.chars().flat_map(|ch| self.glyph(ch)).map(|g| g.width).sum()`. -/
def Font.determineWidth (f : Font) (s : List Char) : Nat :=
  ((s.filterMap f.glyph).map Glyph.width).sum

/-- `Font::from_uf2`: a `transmute` of the `0x2100` input bytes into the
`repr(C)` struct — the first 256 bytes are the width table, the remaining
8192 bytes the glyph bitmaps, with no validation of either. -/
def Font.fromUf2 (bytes : Nat → Byte) : Font :=
  { widths := fun n => bytes n, glyphs := fun k => bytes (256 + k) }

/-! ## `src/font/mod.rs` — the generic glyph model and the wrapped font -/

/-- `GenericGlyph` from `font/mod.rs`: a flat row-major boolean buffer plus
the glyph width. -/
structure GenericGlyph where
  buf : List Bool
  width : Nat
deriving DecidableEq

/-- `impl From<uf2::Glyph> for GenericGlyph`: concatenate every row produced
by `value.rows()` (which panics, `none`, when the declared width exceeds 16)
and keep `value.width`. -/
def GenericGlyph.ofUf2 (g : Glyph) : Option GenericGlyph :=
  g.rows.map (fun rs => { buf := rs.flatten, width := g.width })

/-- `impl From<psf2::Glyph> for GenericGlyph`: `height` is the number of rows
the psf2 glyph iterator yields, `buf` their concatenation, and
`width = buf.len() / height` — a division that panics (`none`) when the
iterator yields no rows. -/
def GenericGlyph.ofPsf2 (rows : List (List Bool)) : Option GenericGlyph :=
  if rows.length = 0 then none
  else some { buf := rows.flatten, width := rows.flatten.length / rows.length }

/-- `slice::chunks_exact` for a non-zero chunk size: successive chunks of
exactly `w` elements, the final partial chunk (if any) dropped. -/
def chunksExact (w : Nat) (l : List α) : List (List α) :=
  if 0 < w ∧ w ≤ l.length then
    l.take w :: chunksExact w (l.drop w)
  else []
termination_by l.length
decreasing_by
  simp only [List.length_drop]
  omega

/-- `GenericGlyph::rows`: `buf.chunks_exact(width)` — `chunks_exact` panics
(`none`) when the chunk size (the glyph width) is 0. -/
def GenericGlyph.rows (g : GenericGlyph) : Option (List (List Bool)) :=
  if g.width = 0 then none else some (chunksExact g.width g.buf)

/-- Modelled from the spec: the PSF2 decoder lives in the external `psf2`
crate, not in this repository. Per §3/§4.2/§6 of the spec a PSF2 font has a
fixed glyph width and height from its header and a Unicode lookup
(`get_unicode`) that yields `None` for characters absent from the table;
a present glyph is a bitmap of `height` rows of `width` one-bit pixels. -/
structure Psf2Font where
  width : Nat
  height : Nat
  table : Char → Option (List (List Bool))

/-- Structural consistency of a `Psf2Font` (spec §3: "every declared glyph
index must resolve to a bitmap of exactly `glyph byte size` bytes"): a
positive height, and every glyph in the table has exactly `height` rows of
exactly `width` cells. -/
def Psf2Font.WF (f : Psf2Font) : Prop :=
  0 < f.height ∧
    ∀ ch g, f.table ch = some g →
      g.length = f.height ∧ ∀ row ∈ g, row.length = f.width

/-- `WrappedFont` from `font/mod.rs`. -/
inductive WrappedFont
  | psf2 (f : Psf2Font)
  | uf2 (f : Font)

/-- `WrappedFont::height`. -/
def WrappedFont.height : WrappedFont → Nat
  | .psf2 f => f.height
  | .uf2 f => f.height

/-- Rust `str::len`: the UTF-8 byte length of the string. -/
def utf8Len (s : List Char) : Nat := (s.map Char.utf8Size).sum

/-- `WrappedFont::determine_width`: for psf2, `s.len() * font.width()`
(`s.len()` being the UTF-8 byte length); for uf2, the per-glyph summation. -/
def WrappedFont.determineWidth : WrappedFont → List Char → Nat
  | .psf2 f, s => utf8Len s * f.width
  | .uf2 f, s => f.determineWidth s

/-- `WrappedFont::glyph`: delegate to `get_unicode` / `Font::glyph` and
convert into a `GenericGlyph` (the conversion's panics propagate). -/
def WrappedFont.glyph : WrappedFont → Char → Option GenericGlyph
  | .psf2 f, ch => (f.table ch).bind GenericGlyph.ofPsf2
  | .uf2 f, ch => (f.glyph ch).bind GenericGlyph.ofUf2

/-- The per-glyph width summation in the spec's words: the sum of
`glyph(ch).width` over exactly those characters of `s` that have a glyph
(through the `WrappedFont` interface). -/
def WrappedFont.glyphWidthSum (f : WrappedFont) (s : List Char) : Nat :=
  ((s.filterMap f.glyph).map GenericGlyph.width).sum

/-! ## `src/state.rs` — blocks, the string rasterizer, history, layout -/

/-- `Block` from `state.rs`: a height and a flat row-major pixel buffer. -/
structure Block where
  height : Nat
  pixels : List Pixel
deriving DecidableEq

/-- `Block::width`: `pixels.len() / height`. -/
def Block.width (b : Block) : Nat := b.pixels.length / b.height

/-- The innermost loop of `<&str as Draw>::draw`:
`for (xg, cell) in row { pixels[y * width + (x0 + xg)] = fg/bg }`.
`base` carries the flattened index `y * width + x0 + xg` of the next cell. -/
def writeRowCells (fg bg : Pixel) : Nat → List Bool → List Pixel → List Pixel
  | _, [], px => px
  | base, cell :: rest, px =>
    writeRowCells fg bg (base + 1) rest (px.set base (if cell then fg else bg))

/-- The middle loop of `<&str as Draw>::draw`:
`for (y, row) in glyph rows { ... }`, with `y` starting at the given value
and the write base of row `y` being `y * width + x0`. -/
def writeGlyphRows (fg bg : Pixel) (width x0 : Nat) : Nat → List (List Bool) → List Pixel → List Pixel
  | _, [], px => px
  | y, row :: rest, px =>
    writeGlyphRows fg bg width x0 (y + 1) rest (writeRowCells fg bg (y * width + x0) row px)

/-- The outer loop of `<&str as Draw>::draw`: write each glyph's rows at the
cursor `x0`, then advance the cursor by the glyph's width. Each list entry is
the pair of a glyph's width and the rows its row iterator produced. -/
def writeGlyphs (fg bg : Pixel) (width : Nat) : Nat → List (Nat × List (List Bool)) → List Pixel → List Pixel
  | _, [], px => px
  | x0, (w, rows) :: rest, px =>
    writeGlyphs fg bg width (x0 + w) rest (writeGlyphRows fg bg width x0 0 rows px)

/-- `<&str as Draw>::draw` from `state.rs`: keep exactly the characters that
have a glyph, sum their widths into the block width, allocate
`height * width` background pixels, then blit the glyphs left to right
(iterating each glyph's rows; a row-iteration panic propagates as `none`). -/
def drawStr (font : Font) (fg bg : Pixel) (s : List Char) : Option Block :=
  let glyphs := s.filterMap font.glyph
  let width := (glyphs.map Glyph.width).sum
  let height := font.height
  (glyphs.mapM (fun (g : Glyph) => g.rows.map (fun rs => (g.width, rs)))).map
    (fun grs =>
      { height := height
        pixels := writeGlyphs fg bg width 0 grs (List.replicate (height * width) bg) })

/-- `History<T>` from `state.rs`: a `VecDeque` with the front (most recent
element) at the head of the list. -/
abbrev History (α : Type _) := List α

/-- `History::new(len)`: `vec![Default::default(); len].into()`. -/
def History.new (α : Type _) [Inhabited α] (len : Nat) : History α :=
  List.replicate len default

/-- `History::push`: record the current length, `push_front` the value, then
truncate back to that length. -/
def History.push (h : History α) (v : α) : History α :=
  (v :: h).take (List.length h)

/-- `History::len`. -/
def History.len (h : History α) : Nat := List.length h

/-- `History::iter`: front to back, i.e. most recent first. -/
def History.iter (h : History α) : List α := h

/-- Pushing a list of values in order (left to right). -/
def History.pushAll (h : History α) (vs : List α) : History α :=
  vs.foldl History.push h

/-- Rust's `as usize` cast of a (non-`NaN`) `f32`: truncate toward zero and
saturate below at 0 — for the non-negative values arising here, the floor. -/
def f32ToUsize (q : ℚ) : Nat := (⌊q⌋).toNat

/-- The per-column split of the `Element::CpuGraph` arm of `State::draw`:
`height - ((usage / 100.0) * height as f32) as usize`, a `usize` subtraction
that panics (`none`) when the cast value exceeds `height`. -/
def graphColBlank (height : Nat) (usage : ℚ) : Option Nat :=
  if f32ToUsize (usage / 100 * height) ≤ height then
    some (height - f32ToUsize (usage / 100 * height))
  else none

/-- The body of the inner loop of the `CpuGraph` arm, with `y` the loop
counter and `rem` the iterations that remain: write `bg` when `y < blank`
and `fg` otherwise at index `y * width + x`. -/
def writeColumnCells (width x blank : Nat) (fg bg : Pixel) : Nat → Nat → List Pixel → List Pixel
  | _, 0, px => px
  | y, rem + 1, px =>
    writeColumnCells width x blank fg bg (y + 1) rem
      (px.set (y * width + x) (if y < blank then bg else fg))

/-- The inner loop of the `CpuGraph` arm: `for y in 0..height { ... }`. -/
def writeColumn (width height x blank : Nat) (fg bg : Pixel) (px : List Pixel) : List Pixel :=
  writeColumnCells width x blank fg bg 0 height px

/-- The outer loop of the `CpuGraph` arm: one column per history sample,
`x` counting up from 0 (samples most recent first). -/
def writeColumns (width height : Nat) (fg bg : Pixel) : Nat → List Nat → List Pixel → List Pixel
  | _, [], px => px
  | x, blank :: rest, px =>
    writeColumns width height fg bg (x + 1) rest (writeColumn width height x blank fg bg px)

/-- The `Element::CpuGraph` arm of `State::draw`: `width = hist.len()`,
a `height * width` background buffer, then one column per sample. -/
def cpuGraphDraw (height : Nat) (fg bg : Pixel) (hist : List ℚ) : Option Block :=
  (hist.mapM (graphColBlank height)).map
    (fun blanks =>
      { height := height
        pixels :=
          writeColumns hist.length height fg bg 0 blanks
            (List.replicate (height * hist.length) bg) })

/-- `Alignment` from `state.rs`. -/
inductive Alignment
  | left
  | right
deriving DecidableEq

/-- The `mpd::State` playback states (external crate, a plain 3-state enum). -/
inductive MpdState
  | stop
  | play
  | pause
deriving DecidableEq

/-- `playback_state_symbol` from `state.rs`. -/
def playbackStateSymbol : MpdState → List Char
  | .stop => "#".data
  | .play => ">".data
  | .pause => "\"".data

/-- `Element` from `state.rs`, reduced to the data that width, alignment and
layout depend on (the sampled values themselves play no role there; a
`CpuGraph` keeps only its history length). -/
inductive Element
  | padding (width : Nat)
  | space
  | label (s : List Char)
  | date
  | time
  | mem
  | cpu
  | battery
  | cpuGraph (histLen : Nat)
  | playbackState
deriving DecidableEq

/-- `Element::width_with_font` from `state.rs`: the slot width reserved for
the element. The `PlaybackState` arm takes the maximum symbol width over the
three states (the iterator `max().unwrap()` of a non-empty list). -/
def Element.widthWithFont (e : Element) (f : Font) : Nat :=
  match e with
  | .padding w => w
  | .space => f.determineWidth "  ".data
  | .label s => f.determineWidth s
  | .date => f.determineWidth "0000-00-00".data
  | .time => f.determineWidth "00:00:00".data
  | .mem => f.determineWidth "000%".data
  | .cpu => f.determineWidth "000%".data
  | .battery => f.determineWidth "000%".data
  | .cpuGraph n => n
  | .playbackState =>
    (([MpdState.stop, MpdState.play, MpdState.pause]).map
      (fun st => f.determineWidth (playbackStateSymbol st))).foldl max 0

/-- `Element::alignment` from `state.rs`. -/
def Element.alignment : Element → Alignment
  | .date => Alignment.left
  | .time => Alignment.left
  | _ => Alignment.right

/-- The per-element layout step at the tail of `State::draw`: from cursor
`x`, compute `overshoot = slot - blockWidth` (an unsigned subtraction that
panics, `none`, when the block is wider than its slot), blit the block at
`x` for a left-aligned element or at `x + overshoot` for a right-aligned
one, and in either case leave the cursor at `x + overshoot + blockWidth`.
Returns (blit position, cursor after the element). -/
def layoutStep (al : Alignment) (slot blockWidth x : Nat) : Option (Nat × Nat) :=
  if blockWidth ≤ slot then
    let overshoot := slot - blockWidth
    some
      (match al with
        | .left => (x, x + overshoot + blockWidth)
        | .right => (x + overshoot, x + overshoot + blockWidth))
  else none

/-! ## Claim-side comparison definitions (the spec's words) -/

/-- The bit a glyph's row sequence exposes at column `x` of row `y`
(defaults, never reached in the proofs, are `false`/empty). Following the
spec's words: the pixel at `(x, y)` read from the glyph's rows. -/
def glyphRowBit (g : Glyph) (x y : Nat) : Bool :=
  ((((g.rows.getD []).getD y []).get? x).getD false)

/-- Where column `x` of a rendered text block falls: walk the glyphs left to
right; the glyph whose width span contains `x` supplies the bit of its local
column, per the spec's left-to-right cursor placement. -/
def glyphBitAt : List Glyph → Nat → Nat → Bool
  | [], _, _ => false
  | g :: rest, x, y =>
    if x < g.width then glyphRowBit g x y else glyphBitAt rest (x - g.width) y

/-- The same walk over (width, rows) pairs, used to relate the write loops
of `drawStr` to `glyphBitAt`. -/
def pairBitAt : List (Nat × List (List Bool)) → Nat → Nat → Bool
  | [], _, _ => false
  | (w, rows) :: rest, x, y =>
    if x < w then (rows.getD y []).getD x false else pairBitAt rest (x - w) y

/-- The bits a width-truncated glyph row exposes, per the addressing formula:
row `y` is `[tile bit of column x | x < width]`. Derived characterization of
`Glyph.rows`, proved in `Glyph.rows_eq` below. -/
def rowBits (g : Glyph) (y : Nat) : List Bool :=
  (List.range g.width).map
    (fun x => Nat.testBit (g.tiles (x / 8 * 2 + y / 8) (y % 8)) (7 - x % 8))

/-- The synthetic checkerboard tiles of spec §8: tile bit `(x, y)` (bit
`7 - x` of byte row `y`) is set iff `(x + y) % 2 == 0`, i.e. even rows are
`0b10101010` and odd rows `0b01010101`. -/
def checkerTiles : Nat → Nat → Byte :=
  fun _ r => if r % 2 = 0 then 0xAA else 0x55

/-! ## Helper lemmas -/

theorem mapM_some_of_forall {α β : Type _} (f : α → Option β) (g' : α → β) :
    ∀ l : List α, (∀ x ∈ l, f x = some (g' x)) → l.mapM f = some (l.map g')
  | [], _ => rfl
  | x :: l, h => by
    rw [List.mapM_cons, h x (by simp), mapM_some_of_forall f g' l (fun y hy => h y (by simp [hy]))]
    rfl

theorem mapM_none_of_mem {α β : Type _} (f : α → Option β) :
    ∀ l : List α, (∃ x ∈ l, f x = none) → l.mapM f = none
  | x :: l, h => by
    rw [List.mapM_cons]
    rcases h with ⟨z, hz, hnone⟩
    rcases List.mem_cons.mp hz with rfl | hz
    · rw [hnone]; rfl
    · cases hfx : f x
      · rfl
      · rw [mapM_none_of_mem f l ⟨z, hz, hnone⟩]; rfl

theorem Glyph.getPxUnchecked_eq (g : Glyph) {x y : Nat} (hx : x < 16) (hy : y < 16) :
    g.getPxUnchecked x y =
      some (Nat.testBit (g.tiles (x / 8 * 2 + y / 8) (y % 8)) (7 - x % 8)) := by
  rw [Glyph.getPxUnchecked, if_pos ⟨hx, hy⟩]

theorem Glyph.fullRow_eq (g : Glyph) {y : Nat} (hy : y < 16) (hw : g.width ≤ 16) :
    g.fullRow y = some (rowBits g y ++ List.replicate (16 - g.width) false) := by
  rw [Glyph.fullRow, if_pos hy, if_pos hw, rowBits,
    mapM_some_of_forall (fun x => g.getPxUnchecked x y)
      (fun x => Nat.testBit (g.tiles (x / 8 * 2 + y / 8) (y % 8)) (7 - x % 8))
      (List.range g.width)
      (fun x hx => g.getPxUnchecked_eq (lt_of_lt_of_le (List.mem_range.mp hx) hw) hy)]
  rfl

theorem Glyph.fullRow_eq_none (g : Glyph) {y : Nat} (hy : y < 16) (hw : 16 < g.width) :
    g.fullRow y = none := by
  rw [Glyph.fullRow, if_pos hy, if_neg (by omega)]

/-- The characterization of the uf2 row iterator for a well-sized glyph:
16 rows, row `y` holding the addressed tile bit of each column `x < width`. -/
theorem Glyph.rows_eq (g : Glyph) (hw : g.width ≤ 16) :
    g.rows = some ((List.range 16).map (rowBits g)) := by
  have hfr : g.fullRows =
      some ((List.range 16).map
        (fun y => rowBits g y ++ List.replicate (16 - g.width) false)) := by
    rw [Glyph.fullRows]
    exact mapM_some_of_forall _ _ _
      (fun y hy => g.fullRow_eq (List.mem_range.mp hy) hw)
  rw [Glyph.rows, hfr]
  simp only [Option.map_some']
  congr 1
  rw [Rows.items]
  simp only [List.drop_zero]
  refine List.map_congr_left (fun y hy => ?_)
  have hy16 := List.mem_range.mp hy
  rw [List.get?_eq_getElem?, List.getElem?_map, List.getElem?_range hy16]
  simp only [Option.map_some', Option.getD_some]
  exact List.take_left' (by simp [rowBits])

theorem Glyph.rows_eq_none (g : Glyph) (hw : 16 < g.width) : g.rows = none := by
  have : g.fullRows = none := by
    rw [Glyph.fullRows]
    exact mapM_none_of_mem _ _
      ⟨0, by simp, g.fullRow_eq_none (by omega) hw⟩
  rw [Glyph.rows, this]
  rfl

theorem rowBits_length (g : Glyph) (y : Nat) : (rowBits g y).length = g.width := by
  simp [rowBits]

/-! ## Claims -/

/-- C1: for every TileFont glyph (of width at most 16, the only widths the
row iterator survives) and every coordinate `(x, y)` with `x < width` and
`y < 16`, the pixel exposed by the glyph's row sequence is bit `7 - x % 8`
of byte row `y % 8` of tile `x / 8 * 2 + y / 8`, a set bit meaning
foreground; and for a glyph whose tiles carry the synthetic checkerboard
(tile bit `(x, r)` set iff `(x + r) % 2 = 0`), the row sequence reproduces
exactly that checkerboard. -/
theorem C1_tile_addressing (g : Glyph) (hw : g.width ≤ 16) :
    (∀ x y, x < 16 → y < 16 →
      g.getPxUnchecked x y =
        some (Nat.testBit (g.tiles (x / 8 * 2 + y / 8) (y % 8)) (7 - x % 8))) ∧
    (∃ rss, g.rows = some rss ∧
      ∀ y, y < 16 → ∀ x, x < g.width →
        (rss.getD y []).get? x =
          some (Nat.testBit (g.tiles (x / 8 * 2 + y / 8) (y % 8)) (7 - x % 8))) ∧
    ((∀ t r x, r < 8 → x < 8 →
        Nat.testBit (g.tiles t r) (7 - x) = decide ((x + r) % 2 = 0)) →
      ∃ rss, g.rows = some rss ∧
        ∀ y, y < 16 → ∀ x, x < g.width →
          (rss.getD y []).get? x = some (decide ((x + y) % 2 = 0))) := by
  have key : ∀ y, y < 16 → ∀ x, x < g.width →
      ((((List.range 16).map (rowBits g)).getD y []).get? x) =
        some (Nat.testBit (g.tiles (x / 8 * 2 + y / 8) (y % 8)) (7 - x % 8)) := by
    intro y hy x hx
    rw [List.getD_eq_getElem?_getD, List.getElem?_map, List.getElem?_range hy]
    simp only [Option.map_some', Option.getD_some]
    rw [rowBits, List.get?_eq_getElem?, List.getElem?_map, List.getElem?_range hx]
    rfl
  refine ⟨fun x y hx hy => g.getPxUnchecked_eq hx hy,
    ⟨_, g.rows_eq hw, key⟩, fun hcheck => ⟨_, g.rows_eq hw, ?_⟩⟩
  intro y hy x hx
  rw [key y hy x hx]
  have h1 : Nat.testBit (g.tiles (x / 8 * 2 + y / 8) (y % 8)) (7 - x % 8) =
      decide ((x % 8 + y % 8) % 2 = 0) :=
    hcheck _ _ _ (Nat.mod_lt _ (by omega)) (Nat.mod_lt _ (by omega))
  rw [h1]
  congr 1
  rw [decide_eq_decide]
  omega

/-- C1 witness: the addressing and checkerboard facts instantiated at a
width-5 glyph over the checkerboard tiles. -/
theorem C1_tile_addressing_witness :
    (∀ x y, x < 16 → y < 16 →
      (Glyph.mk 5 checkerTiles).getPxUnchecked x y =
        some (Nat.testBit (checkerTiles (x / 8 * 2 + y / 8) (y % 8)) (7 - x % 8))) ∧
    (∃ rss, (Glyph.mk 5 checkerTiles).rows = some rss ∧
      ∀ y, y < 16 → ∀ x, x < 5 →
        (rss.getD y []).get? x =
          some (Nat.testBit (checkerTiles (x / 8 * 2 + y / 8) (y % 8)) (7 - x % 8))) ∧
    (∃ rss, (Glyph.mk 5 checkerTiles).rows = some rss ∧
      ∀ y, y < 16 → ∀ x, x < 5 →
        (rss.getD y []).get? x = some (decide ((x + y) % 2 = 0))) :=
  ⟨(C1_tile_addressing ⟨5, checkerTiles⟩ (by decide)).1,
    (C1_tile_addressing ⟨5, checkerTiles⟩ (by decide)).2.1,
    (C1_tile_addressing ⟨5, checkerTiles⟩ (by decide)).2.2
      (fun _ r x hr hx =>
        (by decide :
          ∀ r, r < 8 → ∀ x, x < 8 →
            Nat.testBit (checkerTiles 0 r) (7 - x) = decide ((x + r) % 2 = 0))
          r hr x hx)⟩

/-- C3 counterexample: the claim "height() returns 8 and every glyph's row
sequence yields exactly 8 rows" is false on the code — at any concrete font
and glyph, `height()` is `TILES / 2 * TILE_ROWS = 16` and the row iterator
yields 16 rows. -/
theorem C3_counterexample :
    (Font.mk (fun _ => 0) (fun _ => 0)).height ≠ 8 ∧
    ((Glyph.mk 5 (fun _ _ => 0)).rows.map List.length) ≠ some 8 := by
  constructor
  · decide
  · rw [Glyph.rows_eq ⟨5, fun _ _ => 0⟩ (by decide)]
    simp

/-- C3 (amended): the TileFont glyph height is fixed at 16 rows — `height()`
returns 16, and the row sequence of every glyph (of width at most 16) yields
exactly 16 rows: the full 16-row cell, not just its upper half. -/
theorem C3_height_and_row_count (f : Font) (g : Glyph) (hw : g.width ≤ 16) :
    f.height = 16 ∧ ∃ rss, g.rows = some rss ∧ rss.length = 16 :=
  ⟨rfl, ⟨_, g.rows_eq hw, by simp⟩⟩

/-- C3 witness: the amended claim instantiated at a concrete font and a
width-5 glyph. -/
theorem C3_height_and_row_count_witness :
    (Font.mk (fun _ => 0) (fun _ => 0)).height = 16 ∧
    ∃ rss, (Glyph.mk 5 checkerTiles).rows = some rss ∧ rss.length = 16 :=
  C3_height_and_row_count (Font.mk (fun _ => 0) (fun _ => 0)) ⟨5, checkerTiles⟩ (by decide)

/-- C9: row iteration is total exactly for declared widths at most 16 — a
glyph whose width byte exceeds 16 panics in `full_row`'s slice
`ret[..width]` of a 16-element array (`rows = none`), a width at most 16
always yields rows — and `from_uf2` copies the 256-byte width table from
the file bytes with no validation whatsoever. -/
theorem C9_rows_total_iff_width_le (bytes : Nat → Byte) (n : Nat) (f : Font)
    (ch : Char) (g : Glyph) :
    (Font.fromUf2 bytes).widths n = bytes n ∧
    (ch.toNat ≤ 0x7F → 16 < f.widths ch.toNat →
      ∃ g', f.glyph ch = some g' ∧ g'.rows = none) ∧
    (g.width ≤ 16 → g.rows.isSome = true) := by
  refine ⟨rfl, fun hascii hgt => ?_, fun hle => by rw [g.rows_eq hle]; rfl⟩
  refine ⟨⟨f.widths ch.toNat, fun t r => f.glyphs (ch.toNat * 32 + t * 8 + r)⟩, ?_, ?_⟩
  · rw [Font.glyph, if_pos hascii, Font.glyphTiles, if_pos (by omega)]
    rfl
  · exact Glyph.rows_eq_none _ hgt

/-- C9 witness: with the identity byte buffer, width byte 65 is taken as-is;
the constant-width-17 font's glyph for `'A'` exists but its row iteration
panics; a width-5 glyph's row iteration succeeds. -/
theorem C9_rows_total_iff_width_le_witness :
    (Font.fromUf2 (fun k => k)).widths 65 = 65 ∧
    (∃ g', (Font.mk (fun _ => 17) (fun _ => 0)).glyph 'A' = some g' ∧ g'.rows = none) ∧
    (Glyph.mk 5 (fun _ _ => 0)).rows.isSome = true :=
  ⟨(C9_rows_total_iff_width_le (fun k => k) 65 (Font.mk (fun _ => 17) (fun _ => 0)) 'A'
      ⟨5, fun _ _ => 0⟩).1,
    (C9_rows_total_iff_width_le (fun k => k) 65 (Font.mk (fun _ => 17) (fun _ => 0)) 'A'
      ⟨5, fun _ _ => 0⟩).2.1 (by decide) (by decide),
    (C9_rows_total_iff_width_le (fun k => k) 65 (Font.mk (fun _ => 17) (fun _ => 0)) 'A'
      ⟨5, fun _ _ => 0⟩).2.2 (by decide)⟩

theorem take_append_take {α : Type _} (A B : List α) (L : Nat) :
    (A ++ B.take L).take L = (A ++ B).take L := by
  rw [List.take_append_eq_append_take, List.take_append_eq_append_take, List.take_take]
  congr 1
  rw [Nat.min_eq_left (Nat.sub_le L A.length)]

theorem History.push_len {α : Type _} (h : History α) (v : α) :
    (h.push v).len = h.len := by
  simp [History.push, History.len, Nat.min_eq_left (Nat.le_succ _)]

theorem History.pushAll_eq {α : Type _} :
    ∀ (vs : List α) (h : History α),
      History.pushAll h vs = (vs.reverse ++ h).take (List.length h)
  | [], h => by
    simp [History.pushAll, List.take_length]
  | v :: vs, h => by
    have hlen : List.length (History.push h v) = List.length h := History.push_len h v
    calc History.pushAll h (v :: vs)
        = History.pushAll (h.push v) vs := by
          simp [History.pushAll, List.foldl_cons]
      _ = (vs.reverse ++ h.push v).take (List.length (h.push v)) :=
          History.pushAll_eq vs (h.push v)
      _ = (vs.reverse ++ (v :: h).take (List.length h)).take (List.length h) := by
          rw [hlen]; rfl
      _ = (vs.reverse ++ (v :: h)).take (List.length h) :=
          take_append_take _ _ _
      _ = ((v :: vs).reverse ++ h).take (List.length h) := by
          rw [List.reverse_cons, List.append_assoc]
          rfl

/-- C5: a `History` of capacity `n` has `len() = n` at construction and
after every push; pushing `v_0 .. v_{n-1}` in order into a fresh buffer
makes iteration yield `v_{n-1}, ..., v_0` (most recent first); one further
push evicts `v_0`, keeps all others shifted by one, and preserves the
length. -/
theorem C5_history_fifo (α : Type _) [Inhabited α] (n : Nat) (vs : List α) (v w : α)
    (hst : History α) (hn : 0 < n) (hlen : vs.length = n) :
    (History.new α n).len = n ∧
    (hst.push w).len = hst.len ∧
    (History.pushAll (History.new α n) vs).iter = vs.reverse ∧
    ((History.pushAll (History.new α n) vs).push v).iter = v :: vs.reverse.dropLast ∧
    ((History.pushAll (History.new α n) vs).push v).len = n := by
  have hnew : List.length (History.new α n) = n := by
    simp [History.new]
  have h3 : History.pushAll (History.new α n) vs = vs.reverse := by
    rw [History.pushAll_eq, hnew]
    exact List.take_left' (by simp [hlen])
  refine ⟨hnew, History.push_len hst w, h3, ?_, ?_⟩
  · rw [h3]
    show (v :: vs.reverse).take (List.length vs.reverse) = v :: vs.reverse.dropLast
    rw [List.length_reverse, hlen]
    obtain ⟨m, rfl⟩ : ∃ m, n = m + 1 := ⟨n - 1, by omega⟩
    rw [List.take_succ_cons, List.dropLast_eq_take, List.length_reverse, hlen]
    rfl
  · rw [History.push_len]
    show List.length (History.pushAll (History.new α n) vs) = n
    rw [h3, List.length_reverse, hlen]

/-- C5 witness: capacity 3, pushes of 1, 2, 3, then 4. -/
theorem C5_history_fifo_witness :
    (History.new Nat 3).len = 3 ∧
    (History.push ([5, 6] : List Nat) 7).len = History.len ([5, 6] : List Nat) ∧
    (History.pushAll (History.new Nat 3) [1, 2, 3]).iter = [3, 2, 1] ∧
    ((History.pushAll (History.new Nat 3) [1, 2, 3]).push 4).iter = [4, 3, 2] ∧
    ((History.pushAll (History.new Nat 3) [1, 2, 3]).push 4).len = 3 :=
  C5_history_fifo Nat 3 [1, 2, 3] 4 7 ([5, 6] : List Nat) (by decide) (by decide)

/-- C6: a right-aligned element with slot width `s = width_with_font` and a
rendered block of width `w ≤ s` is, from layout cursor `x`, blitted at
`x + (s - w)`, and the cursor after the element is `x + s`. -/
theorem C6_right_alignment (e : Element) (f : Font) (w x : Nat)
    (ha : e.alignment = Alignment.right) (hw : w ≤ e.widthWithFont f) :
    layoutStep e.alignment (e.widthWithFont f) w x =
      some (x + (e.widthWithFont f - w), x + e.widthWithFont f) := by
  rw [ha, layoutStep, if_pos hw]
  have harith : x + (e.widthWithFont f - w) + w = x + e.widthWithFont f := by omega
  simp only [harith]

/-- C6 witness: a `cpugraph(4)` element (right-aligned, slot width 4) with a
2-column block at cursor 10 is blitted at 12 and leaves the cursor at 14,
never at 12. -/
theorem C6_right_alignment_witness :
    layoutStep (Element.cpuGraph 4).alignment
      ((Element.cpuGraph 4).widthWithFont (Font.mk (fun _ => 0) (fun _ => 0))) 2 10 =
      some (12, 14) :=
  C6_right_alignment (Element.cpuGraph 4) (Font.mk (fun _ => 0) (fun _ => 0)) 2 10
    (by decide) (by decide)

/-- C10: the per-element layout step of `State::draw` computes
`width_with_font(font) - block_width` as an unsigned subtraction, so it is
total exactly when the rendered block is no wider than the element's slot
width; a wider block underflows the subtraction and panics. -/
theorem C10_overshoot_totality (e : Element) (f : Font) (blockWidth x : Nat) :
    (layoutStep e.alignment (e.widthWithFont f) blockWidth x).isSome = true ↔
      blockWidth ≤ e.widthWithFont f := by
  rw [layoutStep]
  by_cases h : blockWidth ≤ e.widthWithFont f <;> simp [h]

/-- C8: evaluation at the failing input. For an ASCII character whose width
byte is 0, the direct uf2 path behaves as the claim says — `glyph` returns a
width-0 glyph, its 16 rows are all zero-length, and it contributes 0 to
`determine_width` — but the `GenericGlyph::rows` of the very same glyph
obtained through `WrappedFont::glyph` panics (`buf.chunks_exact(0)`,
chunk size zero) instead of yielding zero-length rows. -/
theorem C8_zero_width_glyph :
    ((Font.mk (fun _ => 0) (fun _ => 0xFF)).glyph 'A').map Glyph.width = some 0 ∧
    ((Font.mk (fun _ => 0) (fun _ => 0xFF)).glyph 'A').bind Glyph.rows =
      some (List.replicate 16 ([] : List Bool)) ∧
    (Font.mk (fun _ => 0) (fun _ => 0xFF)).determineWidth ['A'] = 0 ∧
    ((WrappedFont.uf2 (Font.mk (fun _ => 0) (fun _ => 0xFF))).glyph 'A').map
        GenericGlyph.rows = some none := by
  decide

theorem GenericGlyph.ofPsf2_eq {rows : List (List Bool)} {hgt w : Nat}
    (hpos : 0 < hgt) (hlen : rows.length = hgt)
    (hrow : ∀ row ∈ rows, row.length = w) :
    GenericGlyph.ofPsf2 rows = some ⟨rows.flatten, w⟩ := by
  rw [GenericGlyph.ofPsf2, if_neg (by omega)]
  have hflat : rows.flatten.length = hgt * w := by
    rw [List.length_flatten, List.map_congr_left hrow, List.map_const',
      List.sum_replicate, smul_eq_mul, hlen]
  rw [hflat, hlen, Nat.mul_div_cancel_left w hpos]

theorem Font.glyph_width {fu : Font} {ch : Char} {g : Glyph}
    (h : fu.glyph ch = some g) : g.width = fu.widths ch.toNat := by
  rw [Font.glyph] at h
  split at h
  · rw [Font.glyphTiles] at h
    split at h
    · simp only [Option.map_some'] at h
      injection h with h
      subst h
      rfl
    · simp at h
  · simp at h

theorem uf2_glyphWidthSum {fu : Font} (hwu : ∀ n, fu.widths n ≤ 16) :
    ∀ s : List Char,
      (WrappedFont.uf2 fu).glyphWidthSum s = fu.determineWidth s
  | [] => rfl
  | ch :: s => by
    have tail := uf2_glyphWidthSum hwu s
    rw [WrappedFont.glyphWidthSum, List.filterMap_cons]
    rw [Font.determineWidth, List.filterMap_cons]
    cases hg : fu.glyph ch with
    | none =>
      simp only [WrappedFont.glyph, hg, Option.none_bind]
      exact tail
    | some g =>
      have hle : g.width ≤ 16 := by rw [Font.glyph_width hg]; exact hwu _
      have hofs : GenericGlyph.ofUf2 g =
          some ⟨((List.range 16).map (rowBits g)).flatten, g.width⟩ := by
        rw [GenericGlyph.ofUf2, g.rows_eq hle]
        rfl
      simp only [WrappedFont.glyph, hg, Option.some_bind, hofs, List.map_cons,
        List.sum_cons]
      exact congrArg (g.width + ·) tail

theorem psf2_glyphWidthSum {fp : Psf2Font} (hwf : fp.WF) :
    ∀ s : List Char, (∀ ch ∈ s, (fp.table ch).isSome = true) →
      (WrappedFont.psf2 fp).glyphWidthSum s = s.length * fp.width
  | [], _ => by simp [WrappedFont.glyphWidthSum]
  | ch :: s, hmapped => by
    have tail := psf2_glyphWidthSum hwf s (fun c hc => hmapped c (by simp [hc]))
    obtain ⟨g, hg⟩ : ∃ g, fp.table ch = some g :=
      Option.isSome_iff_exists.mp (hmapped ch (by simp))
    obtain ⟨hlen, hrow⟩ := hwf.2 ch g hg
    have hofs := GenericGlyph.ofPsf2_eq hwf.1 hlen hrow
    rw [WrappedFont.glyphWidthSum, List.filterMap_cons]
    simp only [WrappedFont.glyph, hg, Option.some_bind, hofs, List.map_cons,
      List.sum_cons]
    rw [WrappedFont.glyphWidthSum] at tail
    rw [tail, List.length_cons]
    ring

/-- C4 (amended): for a uf2 font (of valid widths), `determine_width(s)`
equals the sum of `glyph(ch).width` over the characters of `s` that have a
glyph; for a PSF2 font, `determine_width(s)` equals the UTF-8 byte length of
`s` times the fixed glyph width — which coincides with the per-glyph width
sum, and with character count times fixed width, when every character of
`s` is a single-UTF-8-byte character present in the glyph table. -/
theorem C4_determine_width (fu : Font) (fp : Psf2Font) (s : List Char)
    (hwu : ∀ n, fu.widths n ≤ 16) (hwf : fp.WF)
    (hmapped : ∀ ch ∈ s, (fp.table ch).isSome = true)
    (hbyte : ∀ ch ∈ s, ch.utf8Size = 1) :
    (WrappedFont.uf2 fu).determineWidth s =
      ((s.filterMap fu.glyph).map Glyph.width).sum ∧
    (WrappedFont.uf2 fu).determineWidth s = (WrappedFont.uf2 fu).glyphWidthSum s ∧
    (WrappedFont.psf2 fp).determineWidth s = utf8Len s * fp.width ∧
    (WrappedFont.psf2 fp).determineWidth s = s.length * fp.width ∧
    (WrappedFont.psf2 fp).determineWidth s = (WrappedFont.psf2 fp).glyphWidthSum s := by
  have hchars : utf8Len s = s.length := by
    rw [utf8Len, List.map_congr_left hbyte, List.map_const', List.sum_replicate,
      smul_eq_mul, mul_one]
  refine ⟨rfl, (uf2_glyphWidthSum hwu s).symm, rfl, ?_, ?_⟩
  · show utf8Len s * fp.width = s.length * fp.width
    rw [hchars]
  · rw [psf2_glyphWidthSum hwf s hmapped]
    show utf8Len s * fp.width = s.length * fp.width
    rw [hchars]

/-- C4 counterexample: the claim as stated is false on the code. For a PSF2
font of width 1 with an empty glyph table, `determine_width("a")` is 1 while
the per-glyph width sum is 0 (part one of the claim); and
`determine_width("é")` is 2 — the UTF-8 byte length times the width — not
the character count times the width, which is 1 (part two). -/
theorem C4_counterexample :
    (WrappedFont.psf2 ⟨1, 1, fun _ => none⟩).determineWidth ['a'] = 1 ∧
    (WrappedFont.psf2 ⟨1, 1, fun _ => none⟩).glyphWidthSum ['a'] = 0 ∧
    (WrappedFont.psf2 ⟨1, 1, fun _ => none⟩).determineWidth ['é'] = 2 ∧
    (['é'] : List Char).length * (1 : Nat) = 1 := by
  decide

/-- C4 witness: a uf2 font of constant width byte 2 and a PSF2 font of
width 2 whose table maps every character to a 1×2 bitmap, on the string
`"a"`. -/
theorem C4_determine_width_witness :
    (WrappedFont.uf2 (Font.mk (fun _ => 2) (fun _ => 0xAA))).determineWidth ['a'] =
      (((['a'] : List Char).filterMap (Font.mk (fun _ => 2) (fun _ => 0xAA)).glyph).map
        Glyph.width).sum ∧
    (WrappedFont.uf2 (Font.mk (fun _ => 2) (fun _ => 0xAA))).determineWidth ['a'] =
      (WrappedFont.uf2 (Font.mk (fun _ => 2) (fun _ => 0xAA))).glyphWidthSum ['a'] ∧
    (WrappedFont.psf2 ⟨2, 1, fun _ => some [[true, false]]⟩).determineWidth ['a'] =
      utf8Len ['a'] * 2 ∧
    (WrappedFont.psf2 ⟨2, 1, fun _ => some [[true, false]]⟩).determineWidth ['a'] =
      (['a'] : List Char).length * 2 ∧
    (WrappedFont.psf2 ⟨2, 1, fun _ => some [[true, false]]⟩).determineWidth ['a'] =
      (WrappedFont.psf2 ⟨2, 1, fun _ => some [[true, false]]⟩).glyphWidthSum ['a'] :=
  C4_determine_width (Font.mk (fun _ => 2) (fun _ => 0xAA))
    ⟨2, 1, fun _ => some [[true, false]]⟩ ['a']
    (fun _ => (by decide : (2 : Nat) ≤ 16))
    ⟨by decide, fun ch g h => by
      injection h with h
      subst h
      exact ⟨rfl, by decide⟩⟩
    (by decide) (by decide)

theorem index_lt {y x width height : Nat} (hy : y < height) (hx : x < width) :
    y * width + x < height * width :=
  calc y * width + x < y * width + width := by omega
    _ = (y + 1) * width := by ring
    _ ≤ height * width := Nat.mul_le_mul_right _ (by omega)

theorem row_lt_base {y y0 x width : Nat} (h : y < y0) (hx : x < width) :
    y * width + x < y0 * width :=
  calc y * width + x < y * width + width := by omega
    _ = (y + 1) * width := by ring
    _ ≤ y0 * width := Nat.mul_le_mul_right _ (by omega)

theorem base_le_row {y y0 x x0 w width : Nat} (h : y0 < y) (hw : x0 + w ≤ width) :
    y0 * width + x0 + w ≤ y * width + x :=
  calc y0 * width + x0 + w ≤ y0 * width + width := by omega
    _ = (y0 + 1) * width := by ring
    _ ≤ y * width := Nat.mul_le_mul_right _ (by omega)
    _ ≤ y * width + x := by omega

theorem writeRowCells_length (fg bg : Pixel) :
    ∀ (cells : List Bool) (base : Nat) (px : List Pixel),
      (writeRowCells fg bg base cells px).length = px.length
  | [], _, _ => rfl
  | c :: rest, base, px => by
    rw [writeRowCells, writeRowCells_length fg bg rest (base + 1) _, List.length_set]

theorem writeRowCells_getElem? (fg bg : Pixel) :
    ∀ (cells : List Bool) (base : Nat) (px : List Pixel) (i : Nat),
      (writeRowCells fg bg base cells px)[i]? =
        if base ≤ i ∧ i < base + cells.length ∧ i < px.length then
          some (if cells.getD (i - base) false then fg else bg)
        else px[i]?
  | [], base, px, i => by
    rw [writeRowCells, if_neg (by simp only [List.length_nil]; omega)]
  | c :: rest, base, px, i => by
    rw [writeRowCells,
      writeRowCells_getElem? fg bg rest (base + 1) (px.set base (if c then fg else bg)) i,
      List.length_set, List.getElem?_set, List.length_cons]
    by_cases h1 : base + 1 ≤ i ∧ i < base + 1 + rest.length ∧ i < px.length
    · rw [if_pos h1,
        if_pos (show base ≤ i ∧ i < base + (rest.length + 1) ∧ i < px.length by omega)]
      obtain ⟨k, hk⟩ : ∃ k, i - base = k + 1 := ⟨i - base - 1, by omega⟩
      have hk1 : i - (base + 1) = k := by omega
      rw [hk, hk1, List.getD_cons_succ]
    · rw [if_neg h1]
      by_cases h2 : base = i
      · subst h2
        by_cases h3 : base < px.length
        · rw [if_pos rfl, if_pos h3,
            if_pos (show base ≤ base ∧ base < base + (rest.length + 1) ∧
              base < px.length by omega)]
          rw [Nat.sub_self, List.getD_cons_zero]
        · rw [if_pos rfl, if_neg h3,
            if_neg (show ¬(base ≤ base ∧ base < base + (rest.length + 1) ∧
              base < px.length) by omega)]
          exact (List.getElem?_eq_none (by omega)).symm
      · rw [if_neg h2,
          if_neg (show ¬(base ≤ i ∧ i < base + (rest.length + 1) ∧
            i < px.length) by omega)]

theorem writeGlyphRows_length (fg bg : Pixel) (width x0 : Nat) :
    ∀ (rows : List (List Bool)) (y0 : Nat) (px : List Pixel),
      (writeGlyphRows fg bg width x0 y0 rows px).length = px.length
  | [], _, _ => rfl
  | row :: rest, y0, px => by
    rw [writeGlyphRows, writeGlyphRows_length fg bg width x0 rest (y0 + 1) _,
      writeRowCells_length]

theorem writeGlyphRows_getElem? (fg bg : Pixel) (width x0 w height : Nat)
    (hw : x0 + w ≤ width) :
    ∀ (rows : List (List Bool)) (y0 : Nat) (px : List Pixel),
      (∀ row ∈ rows, row.length = w) → px.length = height * width →
      ∀ y x, y < height → x < width →
        (writeGlyphRows fg bg width x0 y0 rows px)[(y * width + x)]? =
          if y0 ≤ y ∧ y < y0 + rows.length ∧ x0 ≤ x ∧ x < x0 + w then
            some (if (rows.getD (y - y0) []).getD (x - x0) false then fg else bg)
          else px[(y * width + x)]?
  | [], y0, px, _, _, y, x, hy, hx => by
    rw [writeGlyphRows, if_neg (by simp only [List.length_nil]; omega)]
  | row :: rest, y0, px, hrows, hpx, y, x, hy, hx => by
    have hrow : row.length = w := hrows row (by simp)
    have hpx' : (writeRowCells fg bg (y0 * width + x0) row px).length = height * width := by
      rw [writeRowCells_length, hpx]
    rw [writeGlyphRows,
      writeGlyphRows_getElem? fg bg width x0 w height hw rest (y0 + 1) _
        (fun r hr => hrows r (by simp [hr])) hpx' y x hy hx,
      writeRowCells_getElem?, hrow, hpx, List.length_cons]
    have hilt : y * width + x < height * width := index_lt hy hx
    by_cases h1 : y0 + 1 ≤ y ∧ y < y0 + 1 + rest.length ∧ x0 ≤ x ∧ x < x0 + w
    · rw [if_pos h1,
        if_pos (show y0 ≤ y ∧ y < y0 + (rest.length + 1) ∧ x0 ≤ x ∧ x < x0 + w by omega)]
      obtain ⟨k, hk⟩ : ∃ k, y - y0 = k + 1 := ⟨y - y0 - 1, by omega⟩
      have hk1 : y - (y0 + 1) = k := by omega
      rw [hk, hk1, List.getD_cons_succ]
    · rw [if_neg h1]
      rcases Nat.lt_trichotomy y y0 with hyy | rfl | hyy
      · have hfar : y * width + x < y0 * width := row_lt_base hyy hx
        rw [if_neg (show ¬(y0 * width + x0 ≤ y * width + x ∧
            y * width + x < y0 * width + x0 + w ∧
            y * width + x < height * width) by omega),
          if_neg (show ¬(y0 ≤ y ∧ y < y0 + (rest.length + 1) ∧
            x0 ≤ x ∧ x < x0 + w) by omega)]
      · by_cases h2 : x0 ≤ x ∧ x < x0 + w
        · rw [if_pos (show y * width + x0 ≤ y * width + x ∧
              y * width + x < y * width + x0 + w ∧
              y * width + x < height * width by omega),
            if_pos (show y ≤ y ∧ y < y + (rest.length + 1) ∧
              x0 ≤ x ∧ x < x0 + w by omega)]
          rw [Nat.sub_self, List.getD_cons_zero]
          have hsub : y * width + x - (y * width + x0) = x - x0 := by omega
          rw [hsub]
        · rw [if_neg (show ¬(y * width + x0 ≤ y * width + x ∧
              y * width + x < y * width + x0 + w ∧
              y * width + x < height * width) by omega),
            if_neg (show ¬(y ≤ y ∧ y < y + (rest.length + 1) ∧
              x0 ≤ x ∧ x < x0 + w) by omega)]
      · have hfar : y0 * width + x0 + w ≤ y * width + x := base_le_row hyy hw
        rw [if_neg (show ¬(y0 * width + x0 ≤ y * width + x ∧
            y * width + x < y0 * width + x0 + w ∧
            y * width + x < height * width) by omega),
          if_neg (show ¬(y0 ≤ y ∧ y < y0 + (rest.length + 1) ∧
            x0 ≤ x ∧ x < x0 + w) by omega)]

theorem writeGlyphs_length (fg bg : Pixel) (width : Nat) :
    ∀ (grs : List (Nat × List (List Bool))) (x0 : Nat) (px : List Pixel),
      (writeGlyphs fg bg width x0 grs px).length = px.length
  | [], _, _ => rfl
  | (w, rows) :: rest, x0, px => by
    rw [writeGlyphs, writeGlyphs_length fg bg width rest (x0 + w) _,
      writeGlyphRows_length]

theorem writeGlyphs_getElem? (fg bg : Pixel) (width height : Nat) :
    ∀ (grs : List (Nat × List (List Bool))) (x0 : Nat) (px : List Pixel),
      (∀ p ∈ grs, (p.2 : List (List Bool)).length = height ∧ ∀ row ∈ p.2, row.length = p.1) →
      px.length = height * width →
      x0 + (grs.map Prod.fst).sum ≤ width →
      ∀ y x, y < height → x < width →
        (writeGlyphs fg bg width x0 grs px)[(y * width + x)]? =
          if x0 ≤ x ∧ x < x0 + (grs.map Prod.fst).sum then
            some (if pairBitAt grs (x - x0) y then fg else bg)
          else px[(y * width + x)]?
  | [], x0, px, _, _, _, y, x, hy, hx => by
    rw [writeGlyphs, if_neg (by simp only [List.map_nil, List.sum_nil]; omega)]
  | (w, rows) :: rest, x0, px, hgrs, hpx, hsum, y, x, hy, hx => by
    have hhead := hgrs (w, rows) (by simp)
    have hsum' : (((w, rows) :: rest).map Prod.fst).sum = w + (rest.map Prod.fst).sum := by
      simp
    have hpx' : (writeGlyphRows fg bg width x0 0 rows px).length = height * width := by
      rw [writeGlyphRows_length, hpx]
    rw [hsum'] at hsum
    have hwle : x0 + w ≤ width := by omega
    rw [writeGlyphs,
      writeGlyphs_getElem? fg bg width height rest (x0 + w) _
        (fun p hp => hgrs p (by simp [hp])) hpx'
        (by omega) y x hy hx,
      writeGlyphRows_getElem? fg bg width x0 w height hwle rows 0 px hhead.2 hpx y x hy hx, hsum',
      hhead.1]
    by_cases h1 : x0 + w ≤ x ∧ x < x0 + w + (rest.map Prod.fst).sum
    · rw [if_pos h1,
        if_pos (show x0 ≤ x ∧ x < x0 + (w + (rest.map Prod.fst).sum) by omega)]
      rw [pairBitAt, if_neg (show ¬(x - x0 < w) by omega)]
      have hsub : x - x0 - w = x - (x0 + w) := by omega
      rw [hsub]
    · rw [if_neg h1]
      by_cases h2 : x0 ≤ x ∧ x < x0 + w
      · rw [if_pos (show 0 ≤ y ∧ y < 0 + height ∧ x0 ≤ x ∧ x < x0 + w by omega),
          if_pos (show x0 ≤ x ∧ x < x0 + (w + (rest.map Prod.fst).sum) by omega)]
        rw [pairBitAt, if_pos (show x - x0 < w by omega), Nat.sub_zero]
      · rw [if_neg (show ¬(0 ≤ y ∧ y < 0 + height ∧ x0 ≤ x ∧ x < x0 + w) by omega),
          if_neg (show ¬(x0 ≤ x ∧ x < x0 + (w + (rest.map Prod.fst).sum)) by omega)]

theorem pairBitAt_map (f : Font) :
    ∀ (glyphs : List Glyph), (∀ g ∈ glyphs, g.width ≤ 16) → ∀ (x y : Nat),
      pairBitAt (glyphs.map (fun g => (g.width, (List.range 16).map (rowBits g)))) x y =
        glyphBitAt glyphs x y
  | [], _, _, _ => rfl
  | g :: rest, hall, x, y => by
    rw [List.map_cons, pairBitAt, glyphBitAt]
    by_cases hx : x < g.width
    · rw [if_pos hx, if_pos hx, glyphRowBit, g.rows_eq (hall g (by simp)),
        Option.getD_some, List.getD_eq_getElem?_getD, List.get?_eq_getElem?]
    · rw [if_neg hx, if_neg hx,
        pairBitAt_map f rest (fun h hh => hall h (by simp [hh])) (x - g.width) y]

/-- C2: for every string, uf2 font (of valid width bytes), foreground and
background, `draw` produces a `Block` whose width is the sum of the glyph
widths of exactly the characters that have a glyph, whose buffer holds
`height * total_width` pixels, and whose pixel at `(x, y)` is the foreground
exactly where the corresponding glyph row bit is true and the background
everywhere else, glyphs being placed left to right at cursors advanced by
each glyph's width. -/
theorem C2_draw_text (f : Font) (fg bg : Pixel) (s : List Char)
    (hwu : ∀ n, f.widths n ≤ 16) :
    ∃ b, drawStr f fg bg s = some b ∧
      b.height = f.height ∧
      b.pixels.length = f.height * f.determineWidth s ∧
      b.width = f.determineWidth s ∧
      ∀ y x, y < f.height → x < f.determineWidth s →
        b.pixels[(y * f.determineWidth s + x)]? =
          some (if glyphBitAt (s.filterMap f.glyph) x y then fg else bg) := by
  have hall : ∀ g ∈ s.filterMap f.glyph, g.width ≤ 16 := by
    intro g hg
    obtain ⟨ch, _, hch⟩ := List.mem_filterMap.mp hg
    rw [Font.glyph_width hch]
    exact hwu _
  have hmapM : (s.filterMap f.glyph).mapM
      (fun (g : Glyph) => g.rows.map (fun rs => (g.width, rs))) =
      some ((s.filterMap f.glyph).map
        (fun g => (g.width, (List.range 16).map (rowBits g)))) :=
    mapM_some_of_forall _ _ _
      (fun g hg => by rw [(g.rows_eq (hall g hg))]; rfl)
  have hW : f.determineWidth s = ((s.filterMap f.glyph).map Glyph.width).sum := rfl
  have hsumfst : (((s.filterMap f.glyph).map
      (fun g => (g.width, (List.range 16).map (rowBits g)))).map Prod.fst).sum =
      f.determineWidth s := by
    rw [hW, List.map_map]
    rfl
  have hheight : f.height = 16 := rfl
  refine ⟨_, by rw [drawStr, hmapM]; rfl, rfl, ?_, ?_, ?_⟩
  · show (writeGlyphs fg bg _ 0 _ _).length = _
    rw [writeGlyphs_length, List.length_replicate, hW]
  · show (writeGlyphs fg bg _ 0 _ _).length / 16 = f.determineWidth s
    rw [writeGlyphs_length, List.length_replicate]
    exact Nat.mul_div_cancel_left _ (by omega)
  · intro y x hy hx
    have hy16 : y < 16 := hy
    show (writeGlyphs fg bg (f.determineWidth s) 0 _
      (List.replicate (f.height * f.determineWidth s) bg))[(y * f.determineWidth s + x)]? = _
    rw [writeGlyphs_getElem? fg bg (f.determineWidth s) 16 _ 0 _
      (fun p hp => by
        obtain ⟨g, _, rfl⟩ := List.mem_map.mp hp
        refine ⟨by simp, fun row hrow => ?_⟩
        obtain ⟨yy, _, rfl⟩ := List.mem_map.mp hrow
        exact rowBits_length g yy)
      (by rw [List.length_replicate]; rfl)
      (by rw [hsumfst]; omega) y x hy16 hx]
    rw [hsumfst, if_pos ⟨Nat.zero_le x, by omega⟩, Nat.sub_zero,
      pairBitAt_map f _ hall x y]

/-- C2 witness: the constant-width-2 font over `0xAA` tile bytes, drawing
the one-character string `"a"`. -/
theorem C2_draw_text_witness :
    ∃ b, drawStr (Font.mk (fun _ => 2) (fun _ => 0xAA)) ⟨255, 255, 255, 255⟩ ⟨0, 0, 0, 0⟩
        ['a'] = some b ∧
      b.height = (Font.mk (fun _ => 2) (fun _ => 0xAA)).height ∧
      b.pixels.length = (Font.mk (fun _ => 2) (fun _ => 0xAA)).height *
        (Font.mk (fun _ => 2) (fun _ => 0xAA)).determineWidth ['a'] ∧
      b.width = (Font.mk (fun _ => 2) (fun _ => 0xAA)).determineWidth ['a'] ∧
      ∀ y x, y < (Font.mk (fun _ => 2) (fun _ => 0xAA)).height →
        x < (Font.mk (fun _ => 2) (fun _ => 0xAA)).determineWidth ['a'] →
        b.pixels[(y * (Font.mk (fun _ => 2) (fun _ => 0xAA)).determineWidth ['a'] + x)]? =
          some (if glyphBitAt (['a'].filterMap (Font.mk (fun _ => 2) (fun _ => 0xAA)).glyph)
              x y then ⟨255, 255, 255, 255⟩ else ⟨0, 0, 0, 0⟩) :=
  C2_draw_text (Font.mk (fun _ => 2) (fun _ => 0xAA)) ⟨255, 255, 255, 255⟩ ⟨0, 0, 0, 0⟩
    ['a'] (fun _ => (by decide : (2 : Nat) ≤ 16))

theorem writeColumnCells_length (width x blank : Nat) (fg bg : Pixel) :
    ∀ (rem y0 : Nat) (px : List Pixel),
      (writeColumnCells width x blank fg bg y0 rem px).length = px.length
  | 0, _, _ => rfl
  | rem + 1, y0, px => by
    rw [writeColumnCells, writeColumnCells_length width x blank fg bg rem (y0 + 1) _,
      List.length_set]

theorem writeColumnCells_getElem? (width x blank : Nat) (fg bg : Pixel) (height : Nat) :
    ∀ (rem y0 : Nat) (px : List Pixel), px.length = height * width → x < width →
      ∀ y x', y < height → x' < width →
        (writeColumnCells width x blank fg bg y0 rem px)[(y * width + x')]? =
          if y0 ≤ y ∧ y < y0 + rem ∧ x' = x then
            some (if y < blank then bg else fg)
          else px[(y * width + x')]?
  | 0, y0, px, _, _, y, x', _, _ => by
    rw [writeColumnCells, if_neg (by omega)]
  | rem + 1, y0, px, hpx, hxw, y, x', hy, hx' => by
    have hpx' : (px.set (y0 * width + x) (if y0 < blank then bg else fg)).length =
        height * width := by rw [List.length_set, hpx]
    rw [writeColumnCells,
      writeColumnCells_getElem? width x blank fg bg height rem (y0 + 1) _ hpx' hxw
        y x' hy hx',
      List.getElem?_set, hpx]
    by_cases h1 : y0 + 1 ≤ y ∧ y < y0 + 1 + rem ∧ x' = x
    · rw [if_pos h1, if_pos (show y0 ≤ y ∧ y < y0 + (rem + 1) ∧ x' = x by omega)]
    · rw [if_neg h1]
      by_cases h2 : y = y0 ∧ x' = x
      · obtain ⟨rfl, rfl⟩ := h2
        rw [if_pos rfl, if_pos (show y * width + x' < height * width from index_lt hy hx'),
          if_pos (show y ≤ y ∧ y < y + (rem + 1) ∧ x' = x' by omega)]
      · have hne : y0 * width + x ≠ y * width + x' := by
          rcases Nat.lt_trichotomy y y0 with hlt | heq | hgt
          · have hrow := row_lt_base hlt hx'
            omega
          · subst heq
            have hxx : x' ≠ x := fun hh => h2 ⟨rfl, hh⟩
            omega
          · have hrow := row_lt_base hgt hxw
            omega
        rw [if_neg hne, if_neg (show ¬(y0 ≤ y ∧ y < y0 + (rem + 1) ∧ x' = x) by omega)]

theorem writeColumns_length (width height : Nat) (fg bg : Pixel) :
    ∀ (blanks : List Nat) (x0 : Nat) (px : List Pixel),
      (writeColumns width height fg bg x0 blanks px).length = px.length
  | [], _, _ => rfl
  | blank :: rest, x0, px => by
    rw [writeColumns, writeColumns_length width height fg bg rest (x0 + 1) _,
      writeColumn, writeColumnCells_length]

theorem writeColumns_getElem? (width height : Nat) (fg bg : Pixel) :
    ∀ (blanks : List Nat) (x0 : Nat) (px : List Pixel),
      px.length = height * width → x0 + blanks.length ≤ width →
      ∀ y x, y < height → x < width →
        (writeColumns width height fg bg x0 blanks px)[(y * width + x)]? =
          if x0 ≤ x ∧ x < x0 + blanks.length then
            some (if y < blanks.getD (x - x0) 0 then bg else fg)
          else px[(y * width + x)]?
  | [], x0, px, _, _, y, x, _, _ => by
    rw [writeColumns, if_neg (by simp only [List.length_nil]; omega)]
  | blank :: rest, x0, px, hpx, hb, y, x, hy, hx => by
    have hlen : (blank :: rest).length = rest.length + 1 := List.length_cons blank rest
    have hx0w : x0 < width := by omega
    have hpx' : (writeColumn width height x0 blank fg bg px).length = height * width := by
      rw [writeColumn, writeColumnCells_length, hpx]
    rw [writeColumns,
      writeColumns_getElem? width height fg bg rest (x0 + 1) _ hpx' (by omega) y x hy hx,
      writeColumn,
      writeColumnCells_getElem? width x0 blank fg bg height height 0 px hpx hx0w y x hy hx,
      hlen]
    by_cases h1 : x0 + 1 ≤ x ∧ x < x0 + 1 + rest.length
    · rw [if_pos h1, if_pos (show x0 ≤ x ∧ x < x0 + (rest.length + 1) by omega)]
      obtain ⟨k, hk⟩ : ∃ k, x - x0 = k + 1 := ⟨x - x0 - 1, by omega⟩
      have hk1 : x - (x0 + 1) = k := by omega
      rw [hk, hk1, List.getD_cons_succ]
    · rw [if_neg h1]
      by_cases h2 : x = x0
      · rw [if_pos (show 0 ≤ y ∧ y < 0 + height ∧ x = x0 by omega),
          if_pos (show x0 ≤ x ∧ x < x0 + (rest.length + 1) by omega)]
        have hz : x - x0 = 0 := by omega
        rw [hz, List.getD_cons_zero]
      · rw [if_neg (show ¬(0 ≤ y ∧ y < 0 + height ∧ x = x0) by omega),
          if_neg (show ¬(x0 ≤ x ∧ x < x0 + (rest.length + 1)) by omega)]

/-- C7 (amended): for every history of samples at most 100 and every block
height, the graph rasterizer yields one column per sample; in the column of
sample `v`, every pixel with `y < height - trunc(v / 100 * height)` — the
truncation of the cast `as usize`, not a rounding — is the background and
every `y` at or below that split is the foreground. -/
theorem C7_cpu_graph (height : Nat) (fg bg : Pixel) (hist : List ℚ)
    (hv : ∀ v ∈ hist, v ≤ 100) :
    ∃ b, cpuGraphDraw height fg bg hist = some b ∧
      b.height = height ∧
      b.pixels.length = height * hist.length ∧
      (0 < height → b.width = hist.length) ∧
      ∀ x y v, x < hist.length → y < height → hist[x]? = some v →
        b.pixels[(y * hist.length + x)]? =
          some (if y < height - f32ToUsize (v / 100 * height) then bg else fg) := by
  have hblank : ∀ v ∈ hist, graphColBlank height v =
      some (height - f32ToUsize (v / 100 * height)) := by
    intro v hvm
    have hq : v / 100 * (height : ℚ) ≤ (height : ℚ) := by
      have h1 : v / 100 ≤ 1 := by
        rw [div_le_one (by norm_num)]
        exact hv v hvm
      calc v / 100 * (height : ℚ) ≤ 1 * (height : ℚ) :=
            mul_le_mul_of_nonneg_right h1 (by positivity)
        _ = (height : ℚ) := one_mul _
    have hfl : f32ToUsize (v / 100 * height) ≤ height := by
      rw [f32ToUsize, Int.toNat_le]
      calc ⌊v / 100 * (height : ℚ)⌋ ≤ ⌊((height : ℕ) : ℚ)⌋ := Int.floor_le_floor hq
        _ = (height : ℤ) := Int.floor_natCast height
    rw [graphColBlank, if_pos hfl]
  have hmapM := mapM_some_of_forall (graphColBlank height)
    (fun v => height - f32ToUsize (v / 100 * height)) hist hblank
  refine ⟨_, by rw [cpuGraphDraw, hmapM]; rfl, rfl, ?_, ?_, ?_⟩
  · show (writeColumns hist.length height fg bg 0 _ _).length = _
    rw [writeColumns_length, List.length_replicate]
  · intro hpos
    show (writeColumns hist.length height fg bg 0 _ _).length / height = hist.length
    rw [writeColumns_length, List.length_replicate]
    exact Nat.mul_div_cancel_left _ hpos
  · intro x y v hx hy hxv
    show (writeColumns hist.length height fg bg 0 _
      (List.replicate (height * hist.length) bg))[(y * hist.length + x)]? = _
    rw [writeColumns_getElem? hist.length height fg bg _ 0 _
      (by rw [List.length_replicate]) (by rw [List.length_map]; omega) y x hy hx,
      if_pos (by rw [List.length_map]; omega), Nat.sub_zero]
    have hget : (hist.map (fun v => height - f32ToUsize (v / 100 * height))).getD x 0 =
        height - f32ToUsize (v / 100 * height) := by
      rw [List.getD_eq_getElem?_getD, List.getElem?_map, hxv]
      rfl
    rw [hget]

/-- C7 witness: height 8 and the single sample 50 (split at row 4). -/
theorem C7_cpu_graph_witness :
    ∃ b, cpuGraphDraw 8 ⟨255, 255, 255, 255⟩ ⟨0, 0, 0, 0⟩ [(50 : ℚ)] = some b ∧
      b.height = 8 ∧
      b.pixels.length = 8 * ([(50 : ℚ)]).length ∧
      (0 < 8 → b.width = ([(50 : ℚ)]).length) ∧
      ∀ x y v, x < ([(50 : ℚ)]).length → y < 8 → ([(50 : ℚ)])[x]? = some v →
        b.pixels[(y * ([(50 : ℚ)]).length + x)]? =
          some (if y < 8 - f32ToUsize (v / 100 * 8) then ⟨0, 0, 0, 0⟩
            else ⟨255, 255, 255, 255⟩) :=
  C7_cpu_graph 8 ⟨255, 255, 255, 255⟩ ⟨0, 0, 0, 0⟩ [(50 : ℚ)] (by norm_num)

/-- C7 counterexample: the claim's rounded split is falsified at height 8
and the sample `93.75` (a value exact in `f32`): `round(93.75 / 100 * 8)`
is 8, so the claimed split is `8 - 8 = 0` and the pixel at `(0, 0)` should
be the foreground, but the code truncates (`as usize`), producing blank
row 0 as the background. -/
theorem C7_counterexample :
    ((cpuGraphDraw 8 ⟨255, 255, 255, 255⟩ ⟨0, 0, 0, 0⟩ [(375 : ℚ)/4]).map
      (fun b => b.pixels[(0 * 1 + 0)]?)) = some (some ⟨0, 0, 0, 0⟩) ∧
    (⟨0, 0, 0, 0⟩ : Pixel) ≠ ⟨255, 255, 255, 255⟩ ∧
    ((8 : ℤ) - round ((375 : ℚ)/4 / 100 * 8) ≤ 0) := by
  have hfl : (⌊(15 : ℚ)/2⌋) = 7 := by
    rw [Int.floor_eq_iff]
    norm_num
  have hsplit : f32ToUsize ((375 : ℚ)/4 / 100 * ((8 : ℕ) : ℚ)) = 7 := by
    have harg : (375 : ℚ)/4 / 100 * ((8 : ℕ) : ℚ) = 15/2 := by
      push_cast
      norm_num
    rw [f32ToUsize, harg, hfl]
    rfl
  refine ⟨?_, by decide, ?_⟩
  · have hbl : graphColBlank 8 ((375 : ℚ)/4) = some 1 := by
      rw [graphColBlank, hsplit, if_pos (by omega)]
    have hmapM : List.mapM (graphColBlank 8) [(375 : ℚ)/4] = some [1] :=
      mapM_some_of_forall _ (fun _ => 1) _
        (by intro v hv; rw [List.mem_singleton] at hv; subst hv; exact hbl)
    rw [cpuGraphDraw, hmapM]
    rfl
  · have harg : (375 : ℚ)/4 / 100 * 8 = 15/2 := by norm_num
    rw [harg, round_eq]
    have h8 : (⌊(15 : ℚ)/2 + 1/2⌋) = 8 := by
      rw [Int.floor_eq_iff]
      norm_num
    rw [h8]
    norm_num

end Tid
